import Mathlib

/-!
Verification of the matching and ranking engine of the Neblify task service
(`app/services.py`): the fuzzy user-matching cascade (`UserMatcher.match_users`)
and the embedding-based similarity search (`SemanticSearcher.search_transactions`).

Modelling conventions.  Python strings are modelled as lists of characters
(`Str`), with `strip`, `lower`, `split` and substring containment defined by
structural recursion so that every fuzzy-matching computation evaluates.
Python floats are modelled as exact rationals for the fuzzy matcher and as real
numbers for the cosine-similarity pipeline (whose vector norms involve square
roots).  `round(x, 2)` is modelled as rounding to the nearest hundredth.  The
rapidfuzz `fuzz.token_sort_ratio` is modelled from its definition: split both
strings on whitespace, sort the tokens, rejoin with single spaces, and return
the normalized indel (insert/delete edit distance) similarity.  Python `sorted`
with `reverse=True` on a score key is the stable descending sort, modelled by
`List.insertionSort` with the `scoreGE` relation (Mathlib's insertion sort is
stable).  The sentence-transformer embedding provider is opaque and is modelled
as an explicit function parameter `embed : Str → List ℝ`.
-/

namespace Neblify

/-- Python strings, modelled as their character lists. -/
abbrev Str := List Char

/-- Whitespace test used by Python `split()` and `strip()`. -/
def isWS (c : Char) : Bool := c.isWhitespace

/-- Accumulator loop of `pySplit`: `acc` holds the current token reversed. -/
def pySplitGo (acc : Str) : Str → List Str
  | [] => if acc = [] then [] else [acc.reverse]
  | c :: cs =>
    if isWS c then
      if acc = [] then pySplitGo [] cs else acc.reverse :: pySplitGo [] cs
    else pySplitGo (c :: acc) cs

/-- Python `s.split()`: whitespace-delimited tokens, empty pieces dropped. -/
def pySplit (s : Str) : List Str := pySplitGo [] s

/-- Python `s.strip()`: drop leading and trailing whitespace. -/
def pyStrip (s : Str) : Str := ((s.dropWhile isWS).reverse.dropWhile isWS).reverse

/-- Python `s.lower()` (ASCII case folding). -/
def pyLower (s : Str) : Str := s.map Char.toLower

/-- Python `s.strip().lower()`, the normalization used throughout `match_users`. -/
def normalize (s : Str) : Str := pyLower (pyStrip s)

/-- Python `round(x, 2)` on rationals: round to the nearest hundredth. -/
def pyRound2 (q : ℚ) : ℚ := (⌊q * 100 + 1/2⌋ : ℚ) / 100

/-- Fuel-driven recursion computing the indel (insertion/deletion-only) edit
distance; every non-base step shortens the combined input by at least one
character and spends one unit of fuel, so with fuel at least the combined
length the `0` case is unreachable and the true indel distance is computed. -/
def indelDistF : Nat → Str → Str → Nat
  | _, [], ys => ys.length
  | _, x :: xs, [] => (x :: xs).length
  | 0, _, _ => 0
  | fuel + 1, x :: xs, y :: ys =>
    if x = y then indelDistF fuel xs ys
    else 1 + min (indelDistF fuel xs (y :: ys)) (indelDistF fuel (x :: xs) ys)

/-- Indel edit distance on character lists; this is the distance underlying
rapidfuzz `fuzz.ratio`. -/
def indelDist (xs ys : Str) : Nat := indelDistF (xs.length + ys.length) xs ys

/-- rapidfuzz `fuzz.ratio(a, b) / 100`: normalized indel similarity, in `[0, 1]`;
two empty strings count as fully similar. -/
def fuzzRatio (a b : Str) : ℚ :=
  if a.length + b.length = 0 then 1
  else 1 - (indelDist a b : ℚ) / ((a.length : ℚ) + (b.length : ℚ))

/-- Join tokens with single spaces. -/
def joinSpace (ts : List Str) : Str := List.intercalate [' '] ts

/-- Sort the whitespace tokens of a string and rejoin them with single spaces
(the preprocessing step of `fuzz.token_sort_ratio`; Python sorts strings
lexicographically by code point, which is the `Lex` order on `Str`). -/
def sortTokens (s : Str) : Str :=
  joinSpace (List.insertionSort (fun a b : Str => a ≤ b) (pySplit s))

/-- rapidfuzz `fuzz.token_sort_ratio(a, b) / 100`. -/
def tokenSortRatio (a b : Str) : ℚ :=
  fuzzRatio (sortTokens a) (sortTokens b)

/-- Boolean test that `xs` occurs as a contiguous run inside the second list
(Python `xs in ys` on strings). -/
def isInfixChars (xs : Str) : Str → Bool
  | [] => xs.isEmpty
  | y :: ys => xs.isPrefixOf (y :: ys) || isInfixChars xs ys

/-- Python substring containment `small in big`. -/
def strContains (big small : Str) : Bool :=
  isInfixChars small big

/-- Best fuzzy score of the user name against any single description token
(strategy 4 accumulator loop of `match_users`, lines 112-116). -/
def bestTokenScore (nl : Str) (tokens : List Str) : ℚ :=
  tokens.foldl (fun best t => max best (tokenSortRatio nl t)) 0

/-- Per-user scoring cascade of `UserMatcher.match_users` (services.py lines
91-126).  The user name is normalized here; `desc` is the already stripped,
lowered description and `tokens` its whitespace tokens. -/
def userScore (name desc : Str) (tokens : List Str) : Option ℚ :=
  let nl := normalize name
  if nl = desc then some 1
  else if nl ∈ tokens then some (95/100)
  else if strContains desc nl then
    some (85/100 + ((nl.length : ℚ) / (desc.length : ℚ)) * (1/10))
  else if 7/10 ≤ bestTokenScore nl tokens then some (bestTokenScore nl tokens)
  else if 7/10 ≤ tokenSortRatio nl desc then some (tokenSortRatio nl desc)
  else none

/-- Order used to sort result rows: descending by score.  Python
`sorted(..., key=lambda x: x[1], reverse=True)` is the stable sort by this
relation. -/
def scoreGE {α : Type} [LE α] (a b : Str × α) : Prop := b.2 ≤ a.2

instance scoreGE.decidableRel {α : Type} [LinearOrder α] :
    DecidableRel (@scoreGE α _) :=
  fun a b => inferInstanceAs (Decidable (b.2 ≤ a.2))

instance scoreGE.isTotal {α : Type} [LinearOrder α] :
    IsTotal (Str × α) scoreGE :=
  ⟨fun a b => (le_total b.2 a.2).elim Or.inl Or.inr⟩

instance scoreGE.isTrans {α : Type} [LinearOrder α] :
    IsTrans (Str × α) scoreGE :=
  ⟨fun _ _ _ hab hbc => le_trans hbc hab⟩

/-- Body of `UserMatcher.match_users` once the transaction description has been
resolved (services.py lines 82-140): guard on empty description/users, score
every user by the cascade, sort descending by score (stable), round each score
to two decimals, and return the rows with their count. -/
def matchDescription (users : List (Str × Str)) (descRaw : Str) :
    List (Str × ℚ) × Nat :=
  let desc := normalize descRaw
  if desc = [] ∨ users = [] then ([], 0)
  else
    let tokens := pySplit desc
    let scored := users.filterMap
      (fun u => (userScore u.2 desc tokens).map (fun s => (u.1, s)))
    let sortedRows := List.insertionSort scoreGE scored
    let result := sortedRows.map (fun p => (p.1, pyRound2 p.2))
    (result, result.length)

/-- `UserMatcher.match_users` (services.py lines 68-140): resolve the
transaction id in the transaction table; a missing id yields `([], 0)`. -/
def matchUsers (transactions users : List (Str × Str)) (tid : Str) :
    List (Str × ℚ) × Nat :=
  match List.lookup tid transactions with
  | none => ([], 0)
  | some d => matchDescription users d

/-- `np.dot` on the modelled embedding vectors. -/
noncomputable def dotProd (a b : List ℝ) : ℝ := (List.zipWith (fun x y => x * y) a b).sum

/-- Sum of squared entries of a vector. -/
noncomputable def sumSq (a : List ℝ) : ℝ := (a.map (fun x => x * x)).sum

/-- `np.linalg.norm`: the Euclidean norm. -/
noncomputable def vecNorm (a : List ℝ) : ℝ := Real.sqrt (sumSq a)

/-- Cosine similarity as computed in `search_transactions` (lines 188-190),
with the `1e-10` guard added to the denominator. -/
noncomputable def cosSim (q d : List ℝ) : ℝ :=
  dotProd q d / (vecNorm q * vecNorm d + 1 / 10 ^ 10)

/-- The normalization of raw cosine similarity to `[0, 1]` (line 193). -/
noncomputable def normSim (c : ℝ) : ℝ := (c + 1) / 2

/-- Python `round(x, 2)` on reals. -/
noncomputable def pyRound2R (x : ℝ) : ℝ := (⌊x * 100 + 1/2⌋ : ℝ) / 100

/-- `SemanticSearcher.search_transactions` (services.py lines 156-210) with the
embedding model abstracted as the function `embed` and the configured
`SIMILARITY_THRESHOLD` as `threshold`.  An empty transaction table returns
`([], 0)` before the query is tokenized; otherwise every transaction whose
normalized similarity strictly exceeds the threshold is kept with its score
rounded to two decimals, and rows are sorted descending by rounded score. -/
noncomputable def searchTransactions (embed : Str → List ℝ) (threshold : ℝ)
    (transactions : List (Str × Str)) (query : Str) :
    List (Str × ℝ) × Nat :=
  if transactions = [] then ([], 0)
  else
    let qv := embed query
    let scored := transactions.filterMap
      (fun t =>
        let s := normSim (cosSim qv (embed t.2))
        if threshold < s then some (t.1, pyRound2R s) else none)
    (List.insertionSort scoreGE scored, (pySplit query).length)

/-- Modelled from the spec: the five-stage per-entity cascade exactly as the
specification words it — normalized label equal to normalized text scores 1.0;
else label equal to a whitespace token of the text scores 0.95; else label a
substring of the text scores `0.85 + 0.1 * (len label / len text)`; else the
maximum token-wise fuzzy ratio, when at least 0.70, is the score; else the
whole-text fuzzy ratio, when at least 0.70, is the score; otherwise no score. -/
def specCascade (label text : Str) : Option ℚ :=
  let nl := normalize label
  let nt := normalize text
  if nl = nt then some 1
  else if nl ∈ pySplit nt then some (95/100)
  else if strContains nt nl then
    some (85/100 + ((nl.length : ℚ) / (nt.length : ℚ)) * (1/10))
  else if 7/10 ≤ bestTokenScore nl (pySplit nt) then
    some (bestTokenScore nl (pySplit nt))
  else if 7/10 ≤ tokenSortRatio nl nt then some (tokenSortRatio nl nt)
  else none


/-- A concrete embedding assignment used to exhibit threshold-boundary
behaviour: the query maps to a unit vector and every document to an integer
vector of norm 200 whose first coordinate is -79. -/
noncomputable def emC4 : Str → List ℝ :=
  fun s => if s = ['q'] then [1, 0, 0, 0, 0] else [-79, 183, 13, 10, 1]

/-! ### Bounds on the fuzzy-matching primitives -/

theorem indelDistF_le (f : Nat) : ∀ xs ys : Str, indelDistF f xs ys ≤ xs.length + ys.length := by
  induction f with
  | zero =>
    intro xs ys
    cases xs with
    | nil => simp [indelDistF]
    | cons x xs =>
      cases ys with
      | nil => simp [indelDistF]
      | cons y ys => simp [indelDistF]
  | succ f ih =>
    intro xs ys
    cases xs with
    | nil => simp [indelDistF]
    | cons x xs =>
      cases ys with
      | nil => simp [indelDistF]
      | cons y ys =>
        rw [indelDistF]
        split
        · have := ih xs ys
          simp only [List.length_cons]
          omega
        · have h1 := ih xs (y :: ys)
          have h2 := ih (x :: xs) ys
          have hm := Nat.min_le_left (indelDistF f xs (y :: ys)) (indelDistF f (x :: xs) ys)
          simp only [List.length_cons] at *
          omega

theorem indelDist_le (xs ys : Str) : indelDist xs ys ≤ xs.length + ys.length :=
  indelDistF_le _ xs ys

theorem fuzzRatio_nonneg (a b : Str) : 0 ≤ fuzzRatio a b := by
  rw [fuzzRatio]
  split
  · norm_num
  · rename_i h
    have hlen : (0 : ℚ) < (a.length : ℚ) + (b.length : ℚ) := by
      have : 0 < a.length + b.length := Nat.pos_of_ne_zero h
      exact_mod_cast this
    have hle : (indelDist a b : ℚ) ≤ (a.length : ℚ) + (b.length : ℚ) := by
      exact_mod_cast indelDist_le a b
    have := div_le_one_of_le₀ hle hlen.le
    linarith

theorem fuzzRatio_le_one (a b : Str) : fuzzRatio a b ≤ 1 := by
  rw [fuzzRatio]
  split
  · norm_num
  · rename_i h
    have hlen : (0 : ℚ) ≤ (a.length : ℚ) + (b.length : ℚ) := by positivity
    have hd : (0 : ℚ) ≤ (indelDist a b : ℚ) := by positivity
    have := div_nonneg hd hlen
    linarith

theorem tokenSortRatio_nonneg (a b : Str) : 0 ≤ tokenSortRatio a b :=
  fuzzRatio_nonneg _ _

theorem tokenSortRatio_le_one (a b : Str) : tokenSortRatio a b ≤ 1 :=
  fuzzRatio_le_one _ _

theorem bestTokenScore_foldl_le_one (nl : Str) (tokens : List Str) :
    ∀ acc : ℚ, acc ≤ 1 →
      List.foldl (fun best t => max best (tokenSortRatio nl t)) acc tokens ≤ 1 := by
  induction tokens with
  | nil => intro acc h; simpa using h
  | cons t ts ih =>
    intro acc h
    exact ih _ (max_le h (tokenSortRatio_le_one nl t))

theorem bestTokenScore_foldl_ge_init (nl : Str) (tokens : List Str) :
    ∀ acc : ℚ, acc ≤ List.foldl (fun best t => max best (tokenSortRatio nl t)) acc tokens := by
  induction tokens with
  | nil => intro acc; simp
  | cons t ts ih =>
    intro acc
    exact le_trans (le_max_left acc (tokenSortRatio nl t)) (ih _)

theorem bestTokenScore_le_one (nl : Str) (tokens : List Str) :
    bestTokenScore nl tokens ≤ 1 :=
  bestTokenScore_foldl_le_one nl tokens 0 (by norm_num)

theorem bestTokenScore_nonneg (nl : Str) (tokens : List Str) :
    0 ≤ bestTokenScore nl tokens :=
  bestTokenScore_foldl_ge_init nl tokens 0

theorem isInfixChars_length_le (xs : Str) :
    ∀ ys : Str, isInfixChars xs ys = true → xs.length ≤ ys.length := by
  intro ys
  induction ys with
  | nil =>
    intro h
    simp only [isInfixChars, List.isEmpty_iff] at h
    simp [h]
  | cons y ys ih =>
    intro h
    simp only [isInfixChars, Bool.or_eq_true] at h
    rcases h with h | h
    · exact (List.isPrefixOf_iff_prefix.mp h).length_le
    · exact le_trans (ih h) (by simp)

theorem userScore_bounds {name desc : Str} {tokens : List Str} {s : ℚ}
    (h : userScore name desc tokens = some s) : 7/10 ≤ s ∧ s ≤ 1 := by
  rw [userScore] at h
  split at h
  · cases h; norm_num
  · split at h
    · cases h; norm_num
    · split at h
      · rename_i hsub
        cases h
        have hratio0 : (0 : ℚ) ≤ ((normalize name).length : ℚ) / (desc.length : ℚ) := by
          positivity
        have hratio1 : ((normalize name).length : ℚ) / (desc.length : ℚ) ≤ 1 := by
          rcases Nat.eq_zero_or_pos desc.length with hz | hp
          · simp [hz]
          · have hle : ((normalize name).length : ℚ) ≤ (desc.length : ℚ) := by
              exact_mod_cast isInfixChars_length_le _ _ hsub
            have hdpos : (0 : ℚ) < (desc.length : ℚ) := by exact_mod_cast hp
            exact div_le_one_of_le₀ hle hdpos.le
        constructor <;> nlinarith
      · split at h
        · rename_i hbest
          cases h
          exact ⟨hbest, bestTokenScore_le_one _ _⟩
        · split at h
          · rename_i hfull
            cases h
            exact ⟨hfull, tokenSortRatio_le_one _ _⟩
          · cases h


/-! ### Rounding -/

theorem pyRound2_mono {q r : ℚ} (h : q ≤ r) : pyRound2 q ≤ pyRound2 r := by
  rw [pyRound2, pyRound2]
  have : (⌊q * 100 + 1/2⌋ : ℚ) ≤ (⌊r * 100 + 1/2⌋ : ℚ) := by
    exact_mod_cast Int.floor_le_floor (by linarith)
  linarith

theorem pyRound2_one : pyRound2 1 = 1 := by norm_num [pyRound2]

theorem pyRound2_nonneg {q : ℚ} (h : 0 ≤ q) : 0 ≤ pyRound2 q := by
  rw [pyRound2]
  have h0 : (0 : ℤ) ≤ ⌊q * 100 + 1/2⌋ := by
    apply Int.le_floor.mpr
    push_cast
    linarith
  have : (0 : ℚ) ≤ (⌊q * 100 + 1/2⌋ : ℚ) := by exact_mod_cast h0
  linarith

theorem pyRound2_le_one {q : ℚ} (h : q ≤ 1) : pyRound2 q ≤ 1 := by
  have := pyRound2_mono h
  rw [pyRound2_one] at this
  exact this

theorem pyRound2_ge {q c : ℚ} (h : c ≤ q) (hc : pyRound2 c = c) : c ≤ pyRound2 q := by
  calc c = pyRound2 c := hc.symm
  _ ≤ pyRound2 q := pyRound2_mono h

theorem pyRound2_hundredths (q : ℚ) : ∃ n : ℤ, pyRound2 q = (n : ℚ) / 100 :=
  ⟨⌊q * 100 + 1/2⌋, rfl⟩

theorem pyRound2_seven_tenths : pyRound2 (7/10) = 7/10 := by norm_num [pyRound2]

/-! ### Structure of `matchDescription` results -/

theorem mem_matchDescription {users : List (Str × Str)} {d : Str} {p : Str × ℚ}
    (h : p ∈ (matchDescription users d).1) :
    ∃ u ∈ users, ∃ s : ℚ,
      userScore u.2 (normalize d) (pySplit (normalize d)) = some s ∧
      p = (u.1, pyRound2 s) := by
  rw [matchDescription] at h
  split at h
  · simp at h
  · simp only [List.mem_map] at h
    obtain ⟨q, hq, hpq⟩ := h
    rw [List.mem_insertionSort] at hq
    rw [List.mem_filterMap] at hq
    obtain ⟨u, hu, hq2⟩ := hq
    rw [Option.map_eq_some'] at hq2
    obtain ⟨s, hs, hqs⟩ := hq2
    exact ⟨u, hu, s, hs, by rw [← hpq, ← hqs]⟩

theorem matchDescription_mem_intro {users : List (Str × Str)} {d uid name : Str} {s : ℚ}
    (hu : (uid, name) ∈ users)
    (hs : userScore name (normalize d) (pySplit (normalize d)) = some s)
    (hd : normalize d ≠ []) :
    (uid, pyRound2 s) ∈ (matchDescription users d).1 := by
  rw [matchDescription]
  split
  · rename_i hguard
    rcases hguard with h | h
    · exact absurd h hd
    · rw [h] at hu; simp at hu
  · simp only [List.mem_map]
    refine ⟨(uid, s), ?_, rfl⟩
    rw [List.mem_insertionSort, List.mem_filterMap]
    exact ⟨(uid, name), hu, by rw [hs]; rfl⟩

theorem matchDescription_sorted (users : List (Str × Str)) (d : Str) :
    List.Sorted scoreGE (matchDescription users d).1 := by
  rw [matchDescription]
  split
  · simp
  · apply List.Pairwise.map
    · intro a b hab
      exact pyRound2_mono hab
    · exact List.sorted_insertionSort scoreGE _

theorem matchUsers_sorted (txs users : List (Str × Str)) (tid : Str) :
    List.Sorted scoreGE (matchUsers txs users tid).1 := by
  rw [matchUsers]
  cases List.lookup tid txs with
  | none => simp
  | some d => exact matchDescription_sorted users d

theorem mem_matchUsers {txs users : List (Str × Str)} {tid : Str} {p : Str × ℚ}
    (h : p ∈ (matchUsers txs users tid).1) :
    ∃ d, List.lookup tid txs = some d ∧ p ∈ (matchDescription users d).1 := by
  rw [matchUsers] at h
  rcases hl : List.lookup tid txs with _ | d <;> rw [hl] at h
  · simp at h
  · exact ⟨d, rfl, h⟩


/-! ### Key uniqueness and id lists -/

theorem nodup_key_unique {β : Type} {l : List (Str × β)} (hnd : (l.map Prod.fst).Nodup)
    {k : Str} {a b : β} (ha : (k, a) ∈ l) (hb : (k, b) ∈ l) : a = b := by
  induction l with
  | nil => simp at ha
  | cons p l ih =>
    simp only [List.map_cons, List.nodup_cons] at hnd
    rcases List.mem_cons.mp ha with ha1 | ha1 <;>
      rcases List.mem_cons.mp hb with hb1 | hb1
    · have h := ha1.trans hb1.symm
      simpa using h
    · exfalso
      apply hnd.1
      rw [← ha1]
      exact List.mem_map.mpr ⟨(k, b), hb1, rfl⟩
    · exfalso
      apply hnd.1
      rw [← hb1]
      exact List.mem_map.mpr ⟨(k, a), ha1, rfl⟩
    · exact ih hnd.2 ha1 hb1

theorem filterMap_fst_sublist {β γ : Type} (l : List (Str × β))
    (f : Str × β → Option (Str × γ)) (hf : ∀ u p, f u = some p → p.1 = u.1) :
    List.Sublist ((l.filterMap f).map Prod.fst) (l.map Prod.fst) := by
  induction l with
  | nil => simp
  | cons u l ih =>
    rw [List.filterMap_cons]
    cases hu : f u with
    | none =>
      simp only [List.map_cons]
      exact ih.trans (List.sublist_cons_self _ _)
    | some p =>
      simp only [List.map_cons]
      rw [hf u p hu]
      exact ih.cons₂ _

/-- The five-stage cascade stated by the spec coincides, entity by entity, with
the scoring loop of the code once the description is normalized and tokenized. -/
theorem specCascade_eq_userScore (label text : Str) :
    specCascade label text = userScore label (normalize text) (pySplit (normalize text)) :=
  rfl


/-! ### Real-side lemmas: Cauchy-Schwarz and the cosine pipeline -/

theorem sumSq_nonneg (a : List ℝ) : 0 ≤ sumSq a := by
  rw [sumSq]
  induction a with
  | nil => simp
  | cons x xs ih =>
    simp only [List.map_cons, List.sum_cons]
    nlinarith [sq_nonneg x, ih]

theorem sumSq_cons (x : ℝ) (xs : List ℝ) : sumSq (x :: xs) = x * x + sumSq xs := by
  rw [sumSq, sumSq]; simp

theorem dotProd_nil (b : List ℝ) : dotProd [] b = 0 := by rw [dotProd]; simp

theorem dotProd_nil_right (a : List ℝ) : dotProd a [] = 0 := by
  rw [dotProd]; cases a <;> simp

theorem dotProd_cons (x y : ℝ) (xs ys : List ℝ) :
    dotProd (x :: xs) (y :: ys) = x * y + dotProd xs ys := by
  rw [dotProd, dotProd]; simp

theorem dotProd_sq_le (a : List ℝ) : ∀ b : List ℝ, (dotProd a b) ^ 2 ≤ sumSq a * sumSq b := by
  induction a with
  | nil =>
    intro b
    rw [dotProd_nil]
    have := sumSq_nonneg b
    have h0 : sumSq ([] : List ℝ) = 0 := by rw [sumSq]; simp
    nlinarith
  | cons x xs ih =>
    intro b
    cases b with
    | nil =>
      rw [dotProd_nil_right]
      have h0 : sumSq ([] : List ℝ) = 0 := by rw [sumSq]; simp
      have := sumSq_nonneg (x :: xs)
      nlinarith
    | cons y ys =>
      rw [dotProd_cons, sumSq_cons, sumSq_cons]
      have hih := ih ys
      have hA := sumSq_nonneg xs
      have hB := sumSq_nonneg ys
      rcases eq_or_lt_of_le hB with hB0 | hBpos
      · have hD2 : dotProd xs ys ^ 2 ≤ 0 := by
          rw [← hB0] at hih
          simpa using hih
        have hD0 : dotProd xs ys = 0 := by
          nlinarith [sq_nonneg (dotProd xs ys)]
        rw [hD0, ← hB0]
        nlinarith [mul_nonneg hA (sq_nonneg y)]
      · have hcert : 0 ≤ (x * sumSq ys - y * dotProd xs ys) ^ 2 +
            y ^ 2 * (sumSq xs * sumSq ys - dotProd xs ys ^ 2) :=
          add_nonneg (sq_nonneg _) (mul_nonneg (sq_nonneg y) (by linarith))
        have hexp : (x * sumSq ys - y * dotProd xs ys) ^ 2 +
            y ^ 2 * (sumSq xs * sumSq ys - dotProd xs ys ^ 2) =
            sumSq ys * (x ^ 2 * sumSq ys + sumSq xs * y ^ 2 -
              2 * x * y * dotProd xs ys) := by ring
        rw [hexp] at hcert
        have key : 0 ≤ x ^ 2 * sumSq ys + sumSq xs * y ^ 2 -
            2 * x * y * dotProd xs ys :=
          nonneg_of_mul_nonneg_right hcert hBpos
        nlinarith [key, hih]

theorem vecNorm_nonneg (a : List ℝ) : 0 ≤ vecNorm a := Real.sqrt_nonneg _

theorem abs_dotProd_le (a b : List ℝ) : |dotProd a b| ≤ vecNorm a * vecNorm b := by
  rw [vecNorm, vecNorm, ← Real.sqrt_mul (sumSq_nonneg a)]
  rw [← Real.sqrt_sq_eq_abs]
  exact Real.sqrt_le_sqrt (dotProd_sq_le a b)

theorem cosSim_mem_Icc (q d : List ℝ) : -1 ≤ cosSim q d ∧ cosSim q d ≤ 1 := by
  rw [cosSim]
  set N := vecNorm q * vecNorm d with hN
  have hN0 : 0 ≤ N := mul_nonneg (vecNorm_nonneg q) (vecNorm_nonneg d)
  have hden : (0 : ℝ) < N + 1 / 10 ^ 10 := by positivity
  have habs : |dotProd q d| ≤ N := abs_dotProd_le q d
  have h1 : |dotProd q d / (N + 1 / 10 ^ 10)| ≤ 1 := by
    rw [abs_div, abs_of_pos hden]
    rw [div_le_one hden]
    calc |dotProd q d| ≤ N := habs
    _ ≤ N + 1 / 10 ^ 10 := by norm_num
  constructor
  · linarith [neg_abs_le (dotProd q d / (N + 1 / 10 ^ 10))]
  · linarith [le_abs_self (dotProd q d / (N + 1 / 10 ^ 10))]

theorem normSim_mem_Icc {c : ℝ} (h1 : -1 ≤ c) (h2 : c ≤ 1) :
    0 ≤ normSim c ∧ normSim c ≤ 1 := by
  rw [normSim]; constructor <;> linarith

theorem pyRound2R_mono {x y : ℝ} (h : x ≤ y) : pyRound2R x ≤ pyRound2R y := by
  rw [pyRound2R, pyRound2R]
  have : (⌊x * 100 + 1/2⌋ : ℝ) ≤ (⌊y * 100 + 1/2⌋ : ℝ) := by
    exact_mod_cast Int.floor_le_floor (by linarith)
  linarith

theorem pyRound2R_nonneg {x : ℝ} (h : 0 ≤ x) : 0 ≤ pyRound2R x := by
  rw [pyRound2R]
  have h0 : (0 : ℤ) ≤ ⌊x * 100 + 1/2⌋ := by
    apply Int.le_floor.mpr
    push_cast
    linarith
  have : (0 : ℝ) ≤ (⌊x * 100 + 1/2⌋ : ℝ) := by exact_mod_cast h0
  linarith

theorem pyRound2R_one : pyRound2R 1 = 1 := by norm_num [pyRound2R]

theorem pyRound2R_le_one {x : ℝ} (h : x ≤ 1) : pyRound2R x ≤ 1 := by
  have := pyRound2R_mono h
  rw [pyRound2R_one] at this
  exact this

theorem pyRound2R_hundredths (x : ℝ) : ∃ n : ℤ, pyRound2R x = (n : ℝ) / 100 :=
  ⟨⌊x * 100 + 1/2⌋, rfl⟩

/-! ### Structure of `searchTransactions` results -/

theorem mem_searchTransactions {embed : Str → List ℝ} {t : ℝ}
    {txs : List (Str × Str)} {q : Str} {p : Str × ℝ}
    (h : p ∈ (searchTransactions embed t txs q).1) :
    ∃ u ∈ txs, t < normSim (cosSim (embed q) (embed u.2)) ∧
      p = (u.1, pyRound2R (normSim (cosSim (embed q) (embed u.2)))) := by
  rw [searchTransactions] at h
  split at h
  · simp at h
  · rw [List.mem_insertionSort, List.mem_filterMap] at h
    obtain ⟨u, hu, hval⟩ := h
    dsimp only at hval
    split at hval
    · rename_i hlt
      cases hval
      exact ⟨u, hu, hlt, rfl⟩
    · cases hval

theorem searchTransactions_sorted (embed : Str → List ℝ) (t : ℝ)
    (txs : List (Str × Str)) (q : Str) :
    List.Sorted scoreGE (searchTransactions embed t txs q).1 := by
  rw [searchTransactions]
  split
  · simp
  · exact List.sorted_insertionSort scoreGE _


/-! ### Concrete evaluation helpers shared by witnesses -/

theorem userScore_exact_example :
    userScore ['a'] (normalize ['a']) (pySplit (normalize ['a'])) = some 1 := by
  simp [userScore]

theorem memExample_fuzzy :
    (['u'], (1 : ℚ)) ∈ (matchUsers [(['t'], ['a'])] [(['u'], ['a'])] ['t']).1 := by
  have hl : List.lookup ['t'] [(['t'], ['a'])] = some ['a'] := by decide
  have hm : (['u'], pyRound2 1) ∈ (matchDescription [(['u'], ['a'])] ['a']).1 :=
    matchDescription_mem_intro (by simp) userScore_exact_example (by decide)
  rw [matchUsers, hl]
  rw [← pyRound2_one]
  exact hm

theorem cosSim_nil : cosSim ([] : List ℝ) ([] : List ℝ) = 0 := by
  rw [cosSim, dotProd_nil]
  simp

theorem normSim_nil : normSim (cosSim ([] : List ℝ) ([] : List ℝ)) = 1/2 := by
  rw [cosSim_nil, normSim]
  norm_num

theorem pyRound2R_half : pyRound2R (1/2) = 1/2 := by norm_num [pyRound2R]

theorem searchExample_eval :
    (searchTransactions (fun _ => ([] : List ℝ)) (3/10) [(['t'], ['d'])] ['q']).1 =
      [(['t'], (1 : ℝ)/2)] := by
  rw [searchTransactions, if_neg (by simp)]
  simp only [List.filterMap_cons, List.filterMap_nil]
  rw [normSim_nil]
  rw [if_pos (by norm_num)]
  rw [pyRound2R_half]
  simp [List.insertionSort, List.orderedInsert]

theorem memExample_semantic :
    (['t'], (1 : ℝ)/2) ∈
      (searchTransactions (fun _ => ([] : List ℝ)) (3/10) [(['t'], ['d'])] ['q']).1 := by
  rw [searchExample_eval]
  simp

/-! ### Claim theorems -/

/-- C6: `match_users` with a transaction id absent from the transaction table
returns the empty match list with total count `0` as an ordinary (non-error)
result; the scorer is a total function on ids. -/
theorem matchUsers_missing_id (txs users : List (Str × Str)) (tid : Str)
    (h : List.lookup tid txs = none) : matchUsers txs users tid = ([], 0) := by
  rw [matchUsers, h]

theorem matchUsers_missing_id_witness :
    List.lookup ['z'] [(['t'], ['x'])] = none ∧
    matchUsers [(['t'], ['x'])] [(['u'], ['y'])] ['z'] = ([], 0) :=
  ⟨by decide, matchUsers_missing_id [(['t'], ['x'])] [(['u'], ['y'])] ['z'] (by decide)⟩

/-- C7: both scorers are deterministic — on identical inputs (with the
embedding provider a fixed function) they return identical outputs. -/
theorem scorers_deterministic :
    (∀ txs users tid txs2 users2 tid2, txs = txs2 → users = users2 → tid = tid2 →
      matchUsers txs users tid = matchUsers txs2 users2 tid2) ∧
    (∀ (embed : Str → List ℝ) (t : ℝ) txs q t2 txs2 q2, t = t2 → txs = txs2 → q = q2 →
      searchTransactions embed t txs q = searchTransactions embed t2 txs2 q2) := by
  constructor
  · intro txs users tid txs2 users2 tid2 h1 h2 h3
    rw [h1, h2, h3]
  · intro embed t txs q t2 txs2 q2 h1 h2 h3
    rw [h1, h2, h3]

theorem scorers_deterministic_witness :
    matchUsers [(['t'], ['a'])] [(['u'], ['a'])] ['t'] =
      matchUsers [(['t'], ['a'])] [(['u'], ['a'])] ['t'] ∧
    searchTransactions (fun _ => ([] : List ℝ)) (3/10) [(['t'], ['d'])] ['q'] =
      searchTransactions (fun _ => ([] : List ℝ)) (3/10) [(['t'], ['d'])] ['q'] :=
  ⟨scorers_deterministic.1 _ _ _ _ _ _ rfl rfl rfl,
   scorers_deterministic.2 (fun _ => ([] : List ℝ)) _ _ _ _ _ _ rfl rfl rfl⟩

/-- C8: the normalization `score = (cos + 1) / 2` of raw cosine similarity is
strictly monotone. -/
theorem normSim_strictMono (c1 c2 : ℝ) (h : c1 < c2) : normSim c1 < normSim c2 := by
  rw [normSim, normSim]
  linarith

theorem normSim_strictMono_witness : (0 : ℝ) < 1 ∧ normSim 0 < normSim 1 :=
  ⟨by norm_num, normSim_strictMono 0 1 (by norm_num)⟩

/-- C9: every score admitted by the five-stage cascade is at least `0.70`, and
consequently every `match_metric` in a `match_users` result list is at least
`0.70`. -/
theorem matchUsers_min_score :
    (∀ (name desc : Str) (tokens : List Str) (s : ℚ),
      userScore name desc tokens = some s → 7/10 ≤ s) ∧
    (∀ txs users tid p, p ∈ (matchUsers txs users tid).1 → (7 : ℚ)/10 ≤ p.2) := by
  constructor
  · intro name desc tokens s h
    exact (userScore_bounds h).1
  · intro txs users tid p hp
    obtain ⟨d, hd, hmem⟩ := mem_matchUsers hp
    obtain ⟨u, hu, s, hs, hps⟩ := mem_matchDescription hmem
    rw [hps]
    exact pyRound2_ge (userScore_bounds hs).1 pyRound2_seven_tenths

theorem matchUsers_min_score_witness :
    (['u'], (1 : ℚ)) ∈ (matchUsers [(['t'], ['a'])] [(['u'], ['a'])] ['t']).1 ∧
    (7 : ℚ)/10 ≤ 1 :=
  ⟨memExample_fuzzy,
   matchUsers_min_score.2 [(['t'], ['a'])] [(['u'], ['a'])] ['t'] (['u'], (1 : ℚ))
     memExample_fuzzy⟩


theorem matchDescription_ids_nodup (users : List (Str × Str)) (d : Str)
    (h : (users.map Prod.fst).Nodup) :
    ((matchDescription users d).1.map Prod.fst).Nodup := by
  rw [matchDescription]
  split
  · simp
  · rw [List.map_map]
    show (List.map Prod.fst (List.insertionSort scoreGE _)).Nodup
    apply ((List.perm_insertionSort scoreGE _).map Prod.fst).nodup_iff.mpr
    apply List.Nodup.sublist _ h
    apply filterMap_fst_sublist
    intro u p hu
    rw [Option.map_eq_some'] at hu
    obtain ⟨s, _, hps⟩ := hu
    rw [← hps]

theorem searchTransactions_ids_nodup (embed : Str → List ℝ) (t : ℝ)
    (txs : List (Str × Str)) (q : Str) (h : (txs.map Prod.fst).Nodup) :
    ((searchTransactions embed t txs q).1.map Prod.fst).Nodup := by
  rw [searchTransactions]
  split
  · simp
  · show (List.map Prod.fst (List.insertionSort scoreGE _)).Nodup
    apply ((List.perm_insertionSort scoreGE _).map Prod.fst).nodup_iff.mpr
    apply List.Nodup.sublist _ h
    apply filterMap_fst_sublist
    intro u p hu
    dsimp only at hu
    split at hu
    · cases hu; rfl
    · cases hu

/-- C10: in every result list of either scorer, each id appears at most once,
provided the input table keys are distinct (as they are for a Python dict). -/
theorem result_ids_unique :
    (∀ txs users tid, (users.map Prod.fst).Nodup →
      ((matchUsers txs users tid).1.map Prod.fst).Nodup) ∧
    (∀ (embed : Str → List ℝ) (t : ℝ) (txs : List (Str × Str)) (q : Str),
      (txs.map Prod.fst).Nodup →
      ((searchTransactions embed t txs q).1.map Prod.fst).Nodup) := by
  constructor
  · intro txs users tid h
    rw [matchUsers]
    cases List.lookup tid txs with
    | none => simp
    | some d => exact matchDescription_ids_nodup users d h
  · intro embed t txs q h
    exact searchTransactions_ids_nodup embed t txs q h

theorem result_ids_unique_witness :
    (([(['u'], ['a'])] : List (Str × Str)).map Prod.fst).Nodup ∧
    ((matchUsers [(['t'], ['a'])] [(['u'], ['a'])] ['t']).1.map Prod.fst).Nodup ∧
    (([(['t'], ['d'])] : List (Str × Str)).map Prod.fst).Nodup ∧
    ((searchTransactions (fun _ => ([] : List ℝ)) (3/10)
        [(['t'], ['d'])] ['q']).1.map Prod.fst).Nodup :=
  ⟨by decide,
   result_ids_unique.1 [(['t'], ['a'])] [(['u'], ['a'])] ['t'] (by decide),
   by decide,
   result_ids_unique.2 (fun _ => ([] : List ℝ)) (3/10) [(['t'], ['d'])] ['q'] (by decide)⟩

/-- C5: result lists of both scorers are sorted by score descending, and every
returned score lies in `[0, 1]` and is an integer multiple of `1/100` (two
decimal places). -/
theorem results_sorted_and_bounded :
    (∀ txs users tid,
      List.Sorted scoreGE (matchUsers txs users tid).1 ∧
      ∀ p ∈ (matchUsers txs users tid).1,
        0 ≤ p.2 ∧ p.2 ≤ 1 ∧ ∃ n : ℤ, p.2 = (n : ℚ) / 100) ∧
    (∀ (embed : Str → List ℝ) (t : ℝ) (txs : List (Str × Str)) (q : Str),
      List.Sorted scoreGE (searchTransactions embed t txs q).1 ∧
      ∀ p ∈ (searchTransactions embed t txs q).1,
        0 ≤ p.2 ∧ p.2 ≤ 1 ∧ ∃ n : ℤ, p.2 = (n : ℝ) / 100) := by
  constructor
  · intro txs users tid
    refine ⟨matchUsers_sorted txs users tid, ?_⟩
    intro p hp
    obtain ⟨d, hd, hmem⟩ := mem_matchUsers hp
    obtain ⟨u, hu, s, hs, hps⟩ := mem_matchDescription hmem
    obtain ⟨h7, h1⟩ := userScore_bounds hs
    rw [hps]
    exact ⟨pyRound2_nonneg (by linarith), pyRound2_le_one h1, pyRound2_hundredths s⟩
  · intro embed t txs q
    refine ⟨searchTransactions_sorted embed t txs q, ?_⟩
    intro p hp
    obtain ⟨u, hu, hlt, hps⟩ := mem_searchTransactions hp
    obtain ⟨hm1, hm2⟩ := cosSim_mem_Icc (embed q) (embed u.2)
    obtain ⟨hn0, hn1⟩ := normSim_mem_Icc hm1 hm2
    rw [hps]
    exact ⟨pyRound2R_nonneg hn0, pyRound2R_le_one hn1, pyRound2R_hundredths _⟩

theorem results_sorted_and_bounded_witness :
    ((['u'], (1 : ℚ)) ∈ (matchUsers [(['t'], ['a'])] [(['u'], ['a'])] ['t']).1 ∧
      (0 ≤ (1 : ℚ) ∧ (1 : ℚ) ≤ 1 ∧ ∃ n : ℤ, (1 : ℚ) = (n : ℚ) / 100)) ∧
    ((['t'], (1 : ℝ)/2) ∈ (searchTransactions (fun _ => ([] : List ℝ)) (3/10)
        [(['t'], ['d'])] ['q']).1 ∧
      (0 ≤ (1 : ℝ)/2 ∧ (1 : ℝ)/2 ≤ 1 ∧ ∃ n : ℤ, (1 : ℝ)/2 = (n : ℝ) / 100)) :=
  ⟨⟨memExample_fuzzy,
    (results_sorted_and_bounded.1 [(['t'], ['a'])] [(['u'], ['a'])] ['t']).2
      (['u'], (1 : ℚ)) memExample_fuzzy⟩,
   ⟨memExample_semantic,
    (results_sorted_and_bounded.2 (fun _ => ([] : List ℝ)) (3/10)
        [(['t'], ['d'])] ['q']).2 (['t'], (1 : ℝ)/2) memExample_semantic⟩⟩


theorem matchDescription_score_le_one {users : List (Str × Str)} {d : Str} {p : Str × ℚ}
    (hp : p ∈ (matchDescription users d).1) : p.2 ≤ 1 := by
  obtain ⟨u, hu, s, hs, hps⟩ := mem_matchDescription hp
  rw [hps]
  exact pyRound2_le_one (userScore_bounds hs).2

/-- C2 (amended): for every document whose normalized text is nonempty and
every entity of a duplicate-free table, the entity appears in the
`matchDescription` result with score `s` exactly when the five-stage cascade
assigns it a score rounding to `s`; for an empty normalized text the result is
empty regardless of the cascade. -/
theorem cascade_per_entity (users : List (Str × Str)) (descRaw uid name : Str) (s : ℚ)
    (hd : normalize descRaw ≠ [])
    (hnd : (users.map Prod.fst).Nodup)
    (hu : (uid, name) ∈ users) :
    (uid, s) ∈ (matchDescription users descRaw).1 ↔
      (specCascade name descRaw).map pyRound2 = some s := by
  constructor
  · intro h
    obtain ⟨u, hu2, r, hr, hps⟩ := mem_matchDescription h
    have h1 : uid = u.1 := congrArg Prod.fst hps
    have h2 : s = pyRound2 r := congrArg Prod.snd hps
    have hu3 : (uid, u.2) ∈ users := by
      rw [h1]
      exact hu2
    have hname : u.2 = name := nodup_key_unique hnd hu3 hu
    rw [hname] at hr
    rw [specCascade_eq_userScore, hr]
    rw [h2]
    rfl
  · intro h
    rw [specCascade_eq_userScore, Option.map_eq_some'] at h
    obtain ⟨r, hr, hs2⟩ := h
    have hmem := matchDescription_mem_intro hu hr hd
    rw [← hs2]
    exact hmem

theorem cascade_per_entity_witness :
    normalize ['a'] ≠ [] ∧
    (([(['u'], ['a'])] : List (Str × Str)).map Prod.fst).Nodup ∧
    (['u'], ['a']) ∈ ([(['u'], ['a'])] : List (Str × Str)) ∧
    ((['u'], (1 : ℚ)) ∈ (matchDescription [(['u'], ['a'])] ['a']).1 ↔
      (specCascade ['a'] ['a']).map pyRound2 = some 1) :=
  ⟨by decide, by decide, by decide,
   cascade_per_entity [(['u'], ['a'])] ['a'] ['u'] ['a'] 1
     (by decide) (by decide) (by decide)⟩

theorem cascade_per_entity_counterexample :
    specCascade [' '] [' '] = some 1 ∧
    matchDescription [(['u'], [' '])] [' '] = ([], 0) :=
  ⟨by decide, by decide⟩

/-- C3 (amended): an entity whose normalized label equals the (nonempty)
normalized document text scores exactly `1.0`, and the first row of the result
list carries score exactly `1.0`; the exact-match entity itself may be preceded
by an earlier table entry that also reached `1.0` through the whole-text fuzzy
stage, so it need not itself occupy the first position. -/
theorem exact_match_scores_one (users : List (Str × Str)) (descRaw uid name : Str)
    (hu : (uid, name) ∈ users) (hn : normalize name = normalize descRaw)
    (hd : normalize descRaw ≠ []) :
    (uid, (1 : ℚ)) ∈ (matchDescription users descRaw).1 ∧
      ∀ p, (matchDescription users descRaw).1.head? = some p → p.2 = 1 := by
  have hus : userScore name (normalize descRaw) (pySplit (normalize descRaw)) = some 1 := by
    simp only [userScore]
    rw [if_pos hn]
  have hmem := matchDescription_mem_intro hu hus hd
  rw [pyRound2_one] at hmem
  refine ⟨hmem, ?_⟩
  intro p hp
  have hsorted := matchDescription_sorted users descRaw
  cases hres : (matchDescription users descRaw).1 with
  | nil =>
    rw [hres] at hp
    simp at hp
  | cons q rest =>
    have hpmem : p ∈ (matchDescription users descRaw).1 := by
      rw [hres] at hp ⊢
      simp only [List.head?_cons, Option.some.injEq] at hp
      rw [← hp]
      exact List.mem_cons_self _ _
    have hple : p.2 ≤ 1 := matchDescription_score_le_one hpmem
    rw [hres] at hp hsorted hmem
    simp only [List.head?_cons, Option.some.injEq] at hp
    rcases List.mem_cons.mp hmem with heq | hrest
    · rw [← hp, ← heq]
    · have hge : scoreGE q (uid, (1 : ℚ)) := List.rel_of_sorted_cons hsorted _ hrest
      have h1q : (1 : ℚ) ≤ q.2 := hge
      rw [← hp] at hple ⊢
      exact le_antisymm hple h1q

theorem exact_match_scores_one_witness :
    (['u'], ['a']) ∈ ([(['u'], ['a'])] : List (Str × Str)) ∧
    normalize ['a'] = normalize ['a'] ∧
    normalize ['a'] ≠ [] ∧
    ((['u'], (1 : ℚ)) ∈ (matchDescription [(['u'], ['a'])] ['a']).1 ∧
      ∀ p, (matchDescription [(['u'], ['a'])] ['a']).1.head? = some p → p.2 = 1) :=
  ⟨by decide, rfl, by decide,
   exact_match_scores_one [(['u'], ['a'])] ['a'] ['u'] ['a'] (by decide) rfl (by decide)⟩


/-- Cascade score of the label `"b a"` against the text `"a b"`: the first four
stages fail (the two token fuzzies score only `0.5`), and the whole-text
token-sort fuzzy stage scores a perfect `1.0` because sorting the tokens makes
the two strings identical. -/
theorem userScore_ba_ab :
    userScore ['b', ' ', 'a'] (normalize ['a', ' ', 'b'])
      (pySplit (normalize ['a', ' ', 'b'])) = some 1 := by
  have hnorm : normalize ['a', ' ', 'b'] = ['a', ' ', 'b'] := by decide
  have htok : pySplit ['a', ' ', 'b'] = [['a'], ['b']] := by decide
  have hnl : normalize ['b', ' ', 'a'] = ['b', ' ', 'a'] := by decide
  have h2 : tokenSortRatio ['b', ' ', 'a'] ['a'] = 1/2 := by
    norm_num [tokenSortRatio, sortTokens, pySplit, pySplitGo, isWS, joinSpace,
      List.intercalate, List.intersperse, List.insertionSort, List.orderedInsert,
      fuzzRatio, indelDist, indelDistF]
  have h3 : tokenSortRatio ['b', ' ', 'a'] ['b'] = 1/2 := by
    norm_num [tokenSortRatio, sortTokens, pySplit, pySplitGo, isWS, joinSpace,
      List.intercalate, List.intersperse, List.insertionSort, List.orderedInsert,
      fuzzRatio, indelDist, indelDistF]
  have h4 : tokenSortRatio ['b', ' ', 'a'] ['a', ' ', 'b'] = 1 := by
    norm_num [tokenSortRatio, sortTokens, pySplit, pySplitGo, isWS, joinSpace,
      List.intercalate, List.intersperse, List.insertionSort, List.orderedInsert,
      fuzzRatio, indelDist, indelDistF]
  rw [hnorm, htok]
  rw [userScore]
  simp only [hnl]
  rw [if_neg (by decide), if_neg (by decide), if_neg (by decide)]
  rw [bestTokenScore]
  simp only [List.foldl, h2, h3]
  rw [if_neg (by norm_num), h4, if_pos (by norm_num)]

theorem userScore_ab_ab :
    userScore ['a', ' ', 'b'] (normalize ['a', ' ', 'b'])
      (pySplit (normalize ['a', ' ', 'b'])) = some 1 := by
  simp [userScore]

/-- Full evaluation of the tie example: the earlier table entry `"b a"` reaches
`1.0` via the whole-text fuzzy stage, the exact match `"a b"` also scores
`1.0`, and the stable descending sort keeps the earlier entry first. -/
theorem matchDescription_tie_eval :
    (matchDescription [(['u', '1'], ['b', ' ', 'a']), (['u', '2'], ['a', ' ', 'b'])]
      ['a', ' ', 'b']).1 = [(['u', '1'], 1), (['u', '2'], 1)] := by
  rw [matchDescription]
  rw [if_neg (by decide)]
  simp only [List.filterMap_cons, List.filterMap_nil]
  rw [userScore_ba_ab, userScore_ab_ab]
  simp only [Option.map_some']
  simp only [List.insertionSort, List.orderedInsert]
  rw [if_pos (by norm_num [scoreGE])]
  simp only [List.map_cons, List.map_nil]
  rw [pyRound2_one]


/-- C3 counterexample: with entity table `{u1: "b a", u2: "a b"}` (in that
insertion order) and document text `"a b"`, entity `u2` satisfies the
normalized-label-equals-normalized-text premise, both entities score `1.0`
(u1 through the whole-text token-sort fuzzy stage), and the stable descending
sort leaves `u1` — not the exact-match entity `u2` — in first position. -/
theorem exact_match_first_counterexample :
    normalize ['a', ' ', 'b'] = normalize ['a', ' ', 'b'] ∧
    (matchDescription [(['u', '1'], ['b', ' ', 'a']), (['u', '2'], ['a', ' ', 'b'])]
      ['a', ' ', 'b']).1 = [(['u', '1'], 1), (['u', '2'], 1)] ∧
    (matchDescription [(['u', '1'], ['b', ' ', 'a']), (['u', '2'], ['a', ' ', 'b'])]
      ['a', ' ', 'b']).1.head? ≠ some (['u', '2'], 1) := by
  refine ⟨rfl, matchDescription_tie_eval, ?_⟩
  rw [matchDescription_tie_eval]
  simp only [List.head?_cons, ne_eq, Option.some.injEq]
  intro h
  have := congrArg Prod.fst h
  simp at this

/-- C1 (amended): on an empty transaction table `search_transactions` returns
`([], 0)` — the token count in the returned pair is `0` regardless of the
query, because the empty-table early return precedes query tokenization. -/
theorem searchTransactions_empty_table (embed : Str → List ℝ) (t : ℝ) (q : Str) :
    searchTransactions embed t [] q = ([], 0) := by
  rw [searchTransactions]
  simp

/-- C1 counterexample: the query `"a b"` has two whitespace tokens, yet on an
empty table the returned token count is `0`, not `2`. -/
theorem empty_table_token_count_counterexample :
    searchTransactions (fun _ => ([] : List ℝ)) (3/10) [] ['a', ' ', 'b'] = ([], 0) ∧
    (pySplit ['a', ' ', 'b']).length = 2 ∧ (0 : Nat) ≠ 2 := by
  refine ⟨?_, by decide, by decide⟩
  rw [searchTransactions]
  simp

/-- C4 (amended): every row of a `search_transactions` result passed the strict
threshold test on its unrounded normalized similarity; the rounded score stored
in the row may nevertheless equal the threshold. -/
theorem filter_strict_pre_rounding (embed : Str → List ℝ) (t : ℝ)
    (txs : List (Str × Str)) (q : Str) (p : Str × ℝ)
    (hp : p ∈ (searchTransactions embed t txs q).1) :
    ∃ u ∈ txs, p.1 = u.1 ∧ t < normSim (cosSim (embed q) (embed u.2)) ∧
      p.2 = pyRound2R (normSim (cosSim (embed q) (embed u.2))) := by
  obtain ⟨u, hu, hlt, hps⟩ := mem_searchTransactions hp
  exact ⟨u, hu, congrArg Prod.fst hps, hlt, congrArg Prod.snd hps⟩

theorem filter_strict_pre_rounding_witness :
    (['t'], (1 : ℝ)/2) ∈ (searchTransactions (fun _ => ([] : List ℝ)) (3/10)
      [(['t'], ['d'])] ['q']).1 ∧
    ∃ u ∈ ([(['t'], ['d'])] : List (Str × Str)),
      (['t'] : Str) = u.1 ∧
      (3 : ℝ)/10 < normSim (cosSim ((fun _ => ([] : List ℝ)) ['q'])
        ((fun _ => ([] : List ℝ)) u.2)) ∧
      (1 : ℝ)/2 = pyRound2R (normSim (cosSim ((fun _ => ([] : List ℝ)) ['q'])
        ((fun _ => ([] : List ℝ)) u.2))) :=
  ⟨memExample_semantic,
   filter_strict_pre_rounding (fun _ => ([] : List ℝ)) (3/10) [(['t'], ['d'])] ['q']
     (['t'], (1 : ℝ)/2) memExample_semantic⟩


theorem emC4_q : emC4 ['q'] = [1, 0, 0, 0, 0] := by
  rw [emC4]
  rw [if_pos rfl]

theorem emC4_d : emC4 ['d'] = [-79, 183, 13, 10, 1] := by
  rw [emC4]
  rw [if_neg (by decide)]

theorem vecNorm_emq : vecNorm [(1 : ℝ), 0, 0, 0, 0] = 1 := by
  rw [vecNorm]
  have h : sumSq [(1 : ℝ), 0, 0, 0, 0] = 1 := by
    rw [sumSq]
    norm_num
  rw [h, Real.sqrt_one]

theorem vecNorm_emd : vecNorm [(-79 : ℝ), 183, 13, 10, 1] = 200 := by
  rw [vecNorm]
  have h : sumSq [(-79 : ℝ), 183, 13, 10, 1] = 40000 := by
    rw [sumSq]
    norm_num
  rw [h]
  rw [show (40000 : ℝ) = 200 ^ 2 by norm_num]
  exact Real.sqrt_sq (by norm_num)

theorem dotProd_emqd : dotProd [(1 : ℝ), 0, 0, 0, 0] [(-79 : ℝ), 183, 13, 10, 1] = -79 := by
  rw [dotProd]
  norm_num

theorem cosSim_em :
    cosSim [(1 : ℝ), 0, 0, 0, 0] [(-79 : ℝ), 183, 13, 10, 1] = -79 / (200 + 1 / 10 ^ 10) := by
  rw [cosSim, dotProd_emqd, vecNorm_emq, vecNorm_emd]
  norm_num

theorem normSim_em_gt :
    (3 : ℝ)/10 < normSim (cosSim [(1 : ℝ), 0, 0, 0, 0] [(-79 : ℝ), 183, 13, 10, 1]) := by
  rw [cosSim_em, normSim]
  rw [show (200 + 1 / 10 ^ 10 : ℝ) = 2000000000001 / 10000000000 by norm_num]
  norm_num

theorem pyRound2R_em :
    pyRound2R (normSim (cosSim [(1 : ℝ), 0, 0, 0, 0] [(-79 : ℝ), 183, 13, 10, 1])) = 3/10 := by
  rw [cosSim_em, normSim, pyRound2R]
  rw [show (200 + 1 / 10 ^ 10 : ℝ) = 2000000000001 / 10000000000 by norm_num]
  have hfl : ⌊((-79 / ((2000000000001 : ℝ) / 10000000000) + 1) / 2) * 100 + 1/2⌋ = (30 : ℤ) := by
    rw [Int.floor_eq_iff]
    constructor
    · norm_num
    · norm_num
  rw [hfl]
  norm_num

/-- C4 counterexample: with the default threshold `0.3` and the embedding
`emC4`, the single document is kept because its unrounded normalized similarity
`0.3025...` strictly exceeds the threshold, but the returned rounded score is
exactly `0.30`, which is not strictly greater than the threshold. -/
theorem returned_score_at_threshold_counterexample :
    (searchTransactions emC4 (3/10) [(['t'], ['d'])] ['q']).1 = [(['t'], (3 : ℝ)/10)] ∧
    ¬ ((3 : ℝ)/10 < 3/10) := by
  constructor
  · rw [searchTransactions, if_neg (by simp)]
    simp only [List.filterMap_cons, List.filterMap_nil]
    rw [emC4_q, emC4_d]
    rw [if_pos normSim_em_gt]
    rw [pyRound2R_em]
    simp [List.insertionSort, List.orderedInsert]
  · exact lt_irrefl _

end Neblify
